import Mathlib

/-!
Verification of the Micromeritics Tristar II data-reduction pipeline
(`MicromeriticsTristarII/calc_tristar.py` and `parse_tristar.py`).

A parsed isotherm branch is a list of rows `(relative pressure, quantity
adsorbed)`.  The Python code stores them as floating-point numbers; here the
parsed values are embedded as exact rationals, and the numerical pipeline
(BET regression, BJH recurrence) is carried out over the real numbers, so
that `log10` and `sqrt` have their mathematical meaning.
-/

namespace Tristar

/-- One isotherm row: (relative pressure, quantity adsorbed). -/
abbrev Pt : Type := ℚ × ℚ

/-! ### Sorting by pressure

`parse_isotherms` sorts each branch with `numpy.argsort` on the pressure
column (`ads[ads[:, 0].argsort()]`, line 153) and reverses for descending
order (line 154); `calc_BJH` re-sorts its input the same way (line 218).
We model this with an insertion sort on the pressure component; for the
pairwise-distinct-pressure inputs of the claims the result is the unique
sorted arrangement, so the choice of algorithm is immaterial. -/

/-- Insert a row into a list that is ascending in pressure. -/
def insertAsc (x : Pt) : List Pt → List Pt
  | [] => [x]
  | y :: ys => if x.1 ≤ y.1 then x :: y :: ys else y :: insertAsc x ys

/-- Sort a branch into ascending-pressure order (line 153). -/
def sortAsc : List Pt → List Pt
  | [] => []
  | x :: xs => insertAsc x (sortAsc xs)

/-- Sort a branch into descending-pressure order: ascending argsort followed
by the `[::-1]` reversal (lines 154 and 218). -/
def sortDesc (l : List Pt) : List Pt := (sortAsc l).reverse

/-! ### parse_isotherms (lines 145-170)

The regular-expression extraction of the two branch tables from the
utf-16-le text file is pure I/O; the two extracted row lists are taken here
as the inputs.  `parse_isotherms` then sorts the adsorption branch
ascending, the desorption branch descending, concatenates them, and
re-splits at the first index of the maximal pressure (`np.argmax`,
line 156): `ads_p_q = iso[: max_idx + 1]`, `des_p_q = iso[max_idx :]`. -/

/-- Maximum of the pressure column, `np.max` style (0 on the empty list,
which the source never reaches). -/
def maxFst : List Pt → ℚ
  | [] => 0
  | [p] => p.1
  | p :: q :: t => max p.1 (maxFst (q :: t))

/-- First index attaining the maximal pressure; `np.argmax(iso[:, 0])`
(line 156).  `np.argmax` returns the first index of the maximum. -/
def argmaxFst (l : List Pt) : ℕ := l.findIdx fun p => decide (maxFst l ≤ p.1)

/-- Lines 150-170: sort the two branches, concatenate, and split again at
the first index of the global pressure maximum.  Returns the pair
`(ads_p_q, des_p_q)`; the remaining dictionary entries are projections of
these two. -/
def parse_isotherms (ads des : List Pt) : List Pt × List Pt :=
  let a := sortAsc ads
  let d := sortDesc des
  let iso := a ++ d
  let m := argmaxFst iso
  (iso.take (m + 1), iso.drop m)

/-- Lines 117-142 of `calc_tristar.py`.  The `re.search` over the file text
is abstracted as an `Option` input: `none` models the anchor not matching
(`values_only is None`), in which case the source prints a diagnostic and
returns the `np.zeros([1, 2])` placeholder, i.e. the single row `(0, 0)`;
`some rows` models a successful match yielding the extracted rows (possibly
none, when the anchor matched but no numeric rows followed). -/
def parse_isoterm_branch (found : Option (List Pt)) : List Pt :=
  match found with
  | none => [(0, 0)]
  | some rows => rows

/-- Lines 20-43 of `parse_tristar.py`.  Same abstraction: on a failed
search the source prints a diagnostic and returns `[[0.], [0.]]`. -/
def get_custom_table (found : Option (List ℚ × List ℚ)) : List ℚ × List ℚ :=
  match found with
  | none => ([0], [0])
  | some t => t

/-! ### calc_BET (lines 173-207)

The adsorption branch is filtered to relative pressure strictly between
0.05 and 0.3 (line 176), the quantity column is replaced by the BET
transform `1 / (y * (1/x - 1))` (line 177), and `scipy.stats.linregress`
fits a line by ordinary least squares.  `linregress` computes
`slope = Sxy / Sxx`, `intercept = ybar - slope * xbar` and
`r = Sxy / sqrt(Sxx * Syy)` where `Sxx, Sxy, Syy` are the centred second
moments; that closed form is embedded below over `ℝ`. -/

/-- Line 176: `ads[(ads[:, 0] > 0.05) & (ads[:, 0] < 0.3), :]`. -/
def betWindow (ads : List Pt) : List Pt :=
  ads.filter fun p => decide (0.05 < p.1 ∧ p.1 < 0.3)

/-- Line 177: the BET transform of the quantity column,
`1 / (y * (x⁻¹ - 1))`, applied to the filtered window. -/
def betPts (ads : List Pt) : List Pt :=
  (betWindow ads).map fun p => (p.1, 1 / (p.2 * (p.1⁻¹ - 1)))

/-- Cast a parsed row list to real-valued data points. -/
def toR (l : List Pt) : List (ℝ × ℝ) := l.map fun p => ((p.1 : ℝ), (p.2 : ℝ))

/-- Mean of the x column. -/
noncomputable def xbar (l : List (ℝ × ℝ)) : ℝ := (l.map Prod.fst).sum / l.length

/-- Mean of the y column. -/
noncomputable def ybar (l : List (ℝ × ℝ)) : ℝ := (l.map Prod.snd).sum / l.length

/-- Centred second moment in x. -/
noncomputable def sxx (l : List (ℝ × ℝ)) : ℝ := (l.map fun p => (p.1 - xbar l) ^ 2).sum

/-- Centred mixed second moment. -/
noncomputable def sxy (l : List (ℝ × ℝ)) : ℝ :=
  (l.map fun p => (p.1 - xbar l) * (p.2 - ybar l)).sum

/-- Centred second moment in y. -/
noncomputable def syy (l : List (ℝ × ℝ)) : ℝ := (l.map fun p => (p.2 - ybar l) ^ 2).sum

/-- Ordinary-least-squares slope, as computed by `linregress`. -/
noncomputable def slope (l : List (ℝ × ℝ)) : ℝ := sxy l / sxx l

/-- Ordinary-least-squares intercept, as computed by `linregress`. -/
noncomputable def intercept (l : List (ℝ × ℝ)) : ℝ := ybar l - slope l * xbar l

/-- Correlation coefficient, as computed by `linregress`. -/
noncomputable def rvalue (l : List (ℝ × ℝ)) : ℝ := sxy l / Real.sqrt (sxx l * syy l)

/-- Residual sum of squares of the line `y = a * x + b` on the data `l`;
the objective that ordinary least squares minimises. -/
noncomputable def rss (l : List (ℝ × ℝ)) (a b : ℝ) : ℝ :=
  (l.map fun p => (p.2 - (a * p.1 + b)) ^ 2).sum

/-- Denominator `len(ads_bet) - 2` of the error-propagation formula
(lines 182-183), as a real number. -/
noncomputable def errDenom (ads : List Pt) : ℝ := ((betPts ads).length : ℝ) - 2

/-- Result record of `calc_BET` (lines 200-207). -/
structure BETResult where
  bet_x : List ℝ
  bet_y : List ℝ
  bet_A : ℝ
  bet_A_err : ℝ
  bet_r : ℝ

/-- Lines 173-207.  No guard precedes the division by `len(ads_bet) - 2`:
the function is total in the embedding exactly because the source applies
the formulas unconditionally. -/
noncomputable def calc_BET (ads : List Pt) : BETResult :=
  let w := toR (betPts ads)
  let s := slope w
  let c := intercept w
  let r := rvalue w
  let s_err := s * Real.sqrt (((r ^ 2)⁻¹ - 1) / errDenom ads)
  let c_err := c * Real.sqrt (((r ^ 2)⁻¹ - 1) / errDenom ads)
  let bet_ssa := 4.35255551372 / (s + c)
  let bet_ssa_err := 3 * bet_ssa * Real.sqrt (s_err ^ 2 + c_err ^ 2) / (s + c)
  { bet_x := w.map Prod.fst
    bet_y := w.map Prod.snd
    bet_A := bet_ssa
    bet_A_err := bet_ssa_err
    bet_r := r }

/-! ### calc_BJH (lines 210-301)

The branch is first re-sorted into descending-pressure order (line 218).
The per-index arrays are embedded as functions `ℕ → ℝ` of the sorted row
list; indices at or beyond the list length hold junk values that the
source never reads.  The five mutually dependent arrays filled by the
`for` loop (lines 240-248) are carried as one state tuple
`(helper_arr, diff_V, diff_A, cum_V, cum_A)`; index 0 is the all-zero
initial state (`np.zeros_like`, lines 229-233). -/

/-- Pressure at sorted index `i` (column 0 of the branch). -/
noncomputable def press (l : List Pt) (i : ℕ) : ℝ := ((l.getD i (0, 0)).1 : ℝ)

/-- Quantity adsorbed at sorted index `i` (column 1 of the branch). -/
noncomputable def quant (l : List Pt) (i : ℕ) : ℝ := ((l.getD i (0, 0)).2 : ℝ)

/-- Line 220: `radii = -0.415 / np.log10(iso_branch[:, 0])`. -/
noncomputable def radius (l : List Pt) (i : ℕ) : ℝ := -0.415 / Real.logb 10 (press l i)

/-- Line 221: `wall_ads_layers = np.sqrt(0.1399 / (0.034 - np.log10(p)))`. -/
noncomputable def wall (l : List Pt) (i : ℕ) : ℝ :=
  Real.sqrt (0.1399 / (0.034 - Real.logb 10 (press l i)))

/-- Lines 224-225: `diameters = radii + np.roll(radii, 1) + wall + np.roll(wall, 1)`
followed by `diameters[0] = 0`.  The `np.roll` value at index 0 is
overwritten by the sentinel, so only indices `i ≥ 1` use the rolled
neighbour `i - 1`. -/
noncomputable def diam (l : List Pt) (i : ℕ) : ℝ :=
  if i = 0 then 0 else radius l i + radius l (i - 1) + wall l i + wall l (i - 1)

/-- State of the loop of lines 240-248 after processing index `i`:
`(helper_arr[i], diff_V[i], diff_A[i], cum_V[i], cum_A[i])`. -/
noncomputable def bjhState (l : List Pt) : ℕ → ℝ × ℝ × ℝ × ℝ × ℝ
  | 0 => (0, 0, 0, 0, 0)
  | i + 1 =>
    let prev := bjhState l i
    let h := prev.2.2.1 / 1000 * (1 - wall l (i + 1) / (diam l (i + 1) / 2)) + prev.1
    let dV := (diam l (i + 1) / (diam l (i + 1) / 2 - wall l (i + 1))) ^ 2 *
      (0.0015468 * (quant l i - quant l (i + 1)) - (wall l i - wall l (i + 1)) * h) / 4
    let dA := 4000 * dV / diam l (i + 1)
    (h, dV, dA, prev.2.2.2.1 + dV, prev.2.2.2.2 + dA)

/-- Accumulated wall-thinning correction `helper_arr[i]` (line 241). -/
noncomputable def helperArr (l : List Pt) (i : ℕ) : ℝ := (bjhState l i).1

/-- Differential pore volume `diff_V[i]` (lines 243-244). -/
noncomputable def diff_V (l : List Pt) (i : ℕ) : ℝ := (bjhState l i).2.1

/-- Differential pore area `diff_A[i]` (line 247). -/
noncomputable def diff_A (l : List Pt) (i : ℕ) : ℝ := (bjhState l i).2.2.1

/-- Cumulative pore volume `cum_V[i]` (line 245). -/
noncomputable def cum_V (l : List Pt) (i : ℕ) : ℝ := (bjhState l i).2.2.2.1

/-- Cumulative pore area `cum_A[i]` (line 248). -/
noncomputable def cum_A (l : List Pt) (i : ℕ) : ℝ := (bjhState l i).2.2.2.2

/-- Line 250: denominator `dD` of the per-diameter derivatives. -/
noncomputable def dDelta (l : List Pt) (i : ℕ) : ℝ :=
  radius l (i - 1) + wall l (i - 1) - radius l i - wall l i

/-- Line 254: denominator `dlogD` of the per-log-diameter derivatives. -/
noncomputable def dlogDelta (l : List Pt) (i : ℕ) : ℝ :=
  (Real.logb 10 (radius l (i - 1)) + Real.logb 10 (wall l (i - 1)) -
    Real.logb 10 (radius l i) - Real.logb 10 (wall l i)) / 2

/-- Line 251, before the clamp of line 274: `dV_dD[i] = diff_V[i] / dD / 2`. -/
noncomputable def dV_dD (l : List Pt) (i : ℕ) : ℝ :=
  if i = 0 then 0 else diff_V l i / dDelta l i / 2

/-- Line 252, before the clamp of line 275. -/
noncomputable def dA_dD (l : List Pt) (i : ℕ) : ℝ :=
  if i = 0 then 0 else diff_A l i / dDelta l i / 2

/-- Line 255, before the clamp of line 276. -/
noncomputable def dV_dlogD (l : List Pt) (i : ℕ) : ℝ :=
  if i = 0 then 0 else diff_V l i / dlogDelta l i

/-- Line 256, before the clamp of line 277. -/
noncomputable def dA_dlogD (l : List Pt) (i : ℕ) : ℝ :=
  if i = 0 then 0 else diff_A l i / dlogDelta l i

/-- Lines 274-277: `arr[arr < 0.] = 0.`, i.e. each entry `x` becomes
`max x 0`. -/
noncomputable def clampNeg (x : ℝ) : ℝ := max x 0

/-- Indices whose diameter lies in the user window
`(diameters >= start) & (diameters <= end)` (lines 260-261). -/
noncomputable def userIdx (l : List Pt) (s e : ℝ) : List ℕ :=
  (List.range l.length).filter fun i => decide (s ≤ diam l i ∧ diam l i ≤ e)

/-- Result record of `calc_BJH` (lines 283-301).  The series are the
returned arrays, which drop index 0 (`diameters[1:]` and so on), so field
index `i` is loop index `i + 1`.  The four totals are `np.max` over a
possibly empty selection, which raises in `numpy`; they are embedded as
`List.maximum`, with `⊥` for the empty selection.  The `max_D` and `ave_D`
summary scalars are not used by any claim and are not modelled. -/
structure BJHResult where
  D : ℕ → ℝ
  dV : ℕ → ℝ
  V : ℕ → ℝ
  dV_dD : ℕ → ℝ
  dV_dlogD : ℕ → ℝ
  dA : ℕ → ℝ
  A : ℕ → ℝ
  dA_dD : ℕ → ℝ
  dA_dlogD : ℕ → ℝ
  total_V_user : WithBot ℝ
  total_V_full : WithBot ℝ
  total_A_user : WithBot ℝ
  total_A_full : WithBot ℝ

/-- Assemble the `calc_BJH` output from the sorted branch. -/
noncomputable def bjhOfSorted (l : List Pt) (s e : ℝ) : BJHResult :=
  { D := fun i => diam l (i + 1)
    dV := fun i => diff_V l (i + 1)
    V := fun i => cum_V l (i + 1)
    dV_dD := fun i => clampNeg (dV_dD l (i + 1))
    dV_dlogD := fun i => clampNeg (dV_dlogD l (i + 1))
    dA := fun i => diff_A l (i + 1)
    A := fun i => cum_A l (i + 1)
    dA_dD := fun i => clampNeg (dA_dD l (i + 1))
    dA_dlogD := fun i => clampNeg (dA_dlogD l (i + 1))
    total_V_user := ((userIdx l s e).map (cum_V l)).maximum
    total_V_full := ((List.range l.length).map (cum_V l)).maximum
    total_A_user := ((userIdx l s e).map (cum_A l)).maximum
    total_A_full := ((List.range l.length).map (cum_A l)).maximum }

/-- Lines 210-301: sort the branch into descending-pressure order
(line 218) and run the BJH computation.  The source defaults are
`start_pore_diam = 2.5`, `end_pore_diam = 90.`; they are passed explicitly
here. -/
noncomputable def calc_BJH (b : List Pt) (s e : ℝ) : BJHResult :=
  bjhOfSorted (sortDesc b) s e

/-! ### Properties of the pressure sort -/

theorem insertAsc_perm (x : Pt) (l : List Pt) : (insertAsc x l).Perm (x :: l) := by
  induction l with
  | nil => simp [insertAsc]
  | cons y ys ih =>
    simp only [insertAsc]
    split
    · exact List.Perm.refl _
    · exact (List.Perm.cons y ih).trans (List.Perm.swap x y ys)

theorem sortAsc_perm (l : List Pt) : (sortAsc l).Perm l := by
  induction l with
  | nil => simp [sortAsc]
  | cons x xs ih =>
    exact (insertAsc_perm x (sortAsc xs)).trans (List.Perm.cons x ih)

theorem mem_insertAsc {x y : Pt} {l : List Pt} (h : y ∈ insertAsc x l) :
    y = x ∨ y ∈ l := by
  have := (insertAsc_perm x l).mem_iff.mp h
  simpa using this

theorem insertAsc_pairwise {x : Pt} {l : List Pt}
    (h : l.Pairwise fun a b => a.1 ≤ b.1) :
    (insertAsc x l).Pairwise fun a b => a.1 ≤ b.1 := by
  induction l with
  | nil => simp [insertAsc]
  | cons y ys ih =>
    rw [List.pairwise_cons] at h
    obtain ⟨hy, hys⟩ := h
    simp only [insertAsc]
    split
    · rename_i hxy
      refine List.Pairwise.cons ?_ (List.Pairwise.cons hy hys)
      intro z hz
      rcases List.mem_cons.mp hz with rfl | hz
      · exact hxy
      · exact le_trans hxy (hy z hz)
    · rename_i hxy
      push_neg at hxy
      refine List.Pairwise.cons ?_ (ih hys)
      intro z hz
      rcases mem_insertAsc hz with rfl | hz
      · exact le_of_lt hxy
      · exact hy z hz

theorem sortAsc_pairwise (l : List Pt) :
    (sortAsc l).Pairwise fun a b => a.1 ≤ b.1 := by
  induction l with
  | nil => simp [sortAsc]
  | cons x xs ih => exact insertAsc_pairwise ih

theorem sortDesc_perm (l : List Pt) : (sortDesc l).Perm l :=
  (List.reverse_perm (sortAsc l)).trans (sortAsc_perm l)

theorem sortDesc_pairwise (l : List Pt) :
    (sortDesc l).Pairwise fun a b => b.1 ≤ a.1 := by
  rw [sortDesc, List.pairwise_reverse]
  exact sortAsc_pairwise l

theorem eq_of_perm_of_strictDesc :
    ∀ {l₁ l₂ : List Pt}, l₁.Perm l₂ →
      (l₁.Pairwise fun a b => b.1 < a.1) →
      (l₂.Pairwise fun a b => b.1 < a.1) → l₁ = l₂ := by
  intro l₁
  induction l₁ with
  | nil => intro l₂ hp _ _; exact (hp.nil_eq).symm ▸ rfl
  | cons a t₁ ih =>
    intro l₂ hp h₁ h₂
    cases l₂ with
    | nil => exact absurd hp.symm.nil_eq (by simp)
    | cons b t₂ =>
      rw [List.pairwise_cons] at h₁ h₂
      have hab : a = b := by
        by_contra hne
        have ha2 : a ∈ b :: t₂ := hp.subset (List.mem_cons_self a t₁)
        have hb1 : b ∈ a :: t₁ := hp.symm.subset (List.mem_cons_self b t₂)
        have ha2' : a ∈ t₂ := by
          rcases List.mem_cons.mp ha2 with rfl | h
          · exact absurd rfl hne
          · exact h
        have hb1' : b ∈ t₁ := by
          rcases List.mem_cons.mp hb1 with rfl | h
          · exact absurd rfl (fun hh => hne hh.symm)
          · exact h
        have h1 : b.1 < a.1 := h₁.1 b hb1'
        have h2 : a.1 < b.1 := h₂.1 a ha2'
        exact absurd (h1.trans h2) (lt_irrefl _)
      subst hab
      have : t₁ = t₂ := ih (hp.cons_inv) h₁.2 h₂.2
      rw [this]

theorem sortDesc_strict {l : List Pt} (h : (l.map Prod.fst).Nodup) :
    (sortDesc l).Pairwise fun a b => b.1 < a.1 := by
  have hnd : ((sortDesc l).map Prod.fst).Nodup :=
    (((sortDesc_perm l).map Prod.fst).nodup_iff).mpr h
  have hne : (sortDesc l).Pairwise fun a b => a.1 ≠ b.1 := by
    rw [List.Nodup, List.pairwise_map] at hnd
    exact hnd
  have := (sortDesc_pairwise l).and hne
  exact this.imp fun {a b} hab => lt_of_le_of_ne hab.1 (Ne.symm hab.2)

theorem sortDesc_eq_of_perm {b b' : List Pt} (hperm : b.Perm b')
    (hnd : (b.map Prod.fst).Nodup) : sortDesc b = sortDesc b' := by
  have hnd' : (b'.map Prod.fst).Nodup := ((hperm.map Prod.fst).nodup_iff).mp hnd
  exact eq_of_perm_of_strictDesc
    ((sortDesc_perm b).trans (hperm.trans (sortDesc_perm b').symm))
    (sortDesc_strict hnd) (sortDesc_strict hnd')

/-! ### Properties of the pressure maximum and its first index -/

theorem le_maxFst : ∀ {l : List Pt} {x : Pt}, x ∈ l → x.1 ≤ maxFst l := by
  intro l
  induction l with
  | nil => intro x hx; simp at hx
  | cons p t ih =>
    intro x hx
    cases t with
    | nil =>
      simp only [List.mem_singleton] at hx
      simp [hx, maxFst]
    | cons q s =>
      rcases List.mem_cons.mp hx with rfl | hx
      · simp [maxFst]
      · exact le_trans (ih hx) (by simp [maxFst])

theorem maxFst_le : ∀ {l : List Pt} {c : ℚ}, l ≠ [] → (∀ x ∈ l, x.1 ≤ c) →
    maxFst l ≤ c := by
  intro l
  induction l with
  | nil => intro c h; exact absurd rfl h
  | cons p t ih =>
    intro c _ h
    cases t with
    | nil => simpa [maxFst] using h p (by simp)
    | cons q s =>
      have h1 : p.1 ≤ c := h p (by simp)
      have h2 : maxFst (q :: s) ≤ c := by
        refine ih (by simp) ?_
        intro x hx
        exact h x (List.mem_cons_of_mem p hx)
      simp [maxFst, h1, h2]

theorem maxFst_mem : ∀ {l : List Pt}, l ≠ [] → ∃ x ∈ l, x.1 = maxFst l := by
  intro l
  induction l with
  | nil => intro h; exact absurd rfl h
  | cons p t ih =>
    intro _
    cases t with
    | nil => exact ⟨p, by simp, by simp [maxFst]⟩
    | cons q s =>
      rcases le_total p.1 (maxFst (q :: s)) with hle | hle
      · obtain ⟨x, hx, hmax⟩ := ih (by simp)
        refine ⟨x, List.mem_cons_of_mem p hx, ?_⟩
        have hm : maxFst (p :: q :: s) = max p.1 (maxFst (q :: s)) := by simp [maxFst]
        rw [hm, max_eq_right hle, hmax]
      · exact ⟨p, by simp, by simp [maxFst, hle]⟩

theorem findIdx_append_first (p : Pt → Bool) (xs : List Pt) (a : Pt) (ys : List Pt)
    (hxs : ∀ x ∈ xs, p x = false) (ha : p a = true) :
    (xs ++ a :: ys).findIdx p = xs.length := by
  induction xs with
  | nil => simp [List.findIdx_cons, ha]
  | cons x t ih =>
    have hx : p x = false := hxs x (by simp)
    have ht : ∀ y ∈ t, p y = false := fun y hy => hxs y (List.mem_cons_of_mem x hy)
    simp [List.findIdx_cons, hx, ih ht]

theorem maxFst_append_eq {xs : List Pt} {a : Pt} {ys : List Pt}
    (h1 : ∀ x ∈ xs, x.1 < a.1) (h2 : ∀ y ∈ ys, y.1 ≤ a.1) :
    maxFst (xs ++ a :: ys) = a.1 := by
  refine le_antisymm (maxFst_le (by simp) ?_) (le_maxFst (by simp))
  intro x hx
  rcases List.mem_append.mp hx with hx | hx
  · exact le_of_lt (h1 x hx)
  · rcases List.mem_cons.mp hx with rfl | hx
    · exact le_refl _
    · exact h2 x hx

theorem argmaxFst_append {xs : List Pt} {a : Pt} {ys : List Pt}
    (h1 : ∀ x ∈ xs, x.1 < a.1) (h2 : ∀ y ∈ ys, y.1 ≤ a.1) :
    argmaxFst (xs ++ a :: ys) = xs.length := by
  rw [argmaxFst]
  refine findIdx_append_first _ xs a ys ?_ ?_
  · intro x hx
    simp only [decide_eq_false_iff_not, not_le, maxFst_append_eq h1 h2]
    exact h1 x hx
  · simp [maxFst_append_eq h1 h2]

theorem argmaxFst_lt_length {l : List Pt} (hne : l ≠ []) :
    argmaxFst l < l.length := by
  obtain ⟨x, hx, hmax⟩ := maxFst_mem hne
  exact List.findIdx_lt_length_of_exists ⟨x, hx, by simp [hmax]⟩

theorem argmaxFst_get {l : List Pt} (h : argmaxFst l < l.length) :
    (l.get ⟨argmaxFst l, h⟩).1 = maxFst l := by
  have h' : l.findIdx (fun p => decide (maxFst l ≤ p.1)) < l.length := h
  have hp := List.findIdx_getElem (w := h')
  simp only [decide_eq_true_eq] at hp
  refine le_antisymm (le_maxFst (l.get_mem _ _)) ?_
  simpa using hp

theorem lt_maxFst_of_lt_argmax {l : List Pt} {j : ℕ} (hj : j < l.length)
    (hlt : j < argmaxFst l) : (l.get ⟨j, hj⟩).1 < maxFst l := by
  have hlt' : j < l.findIdx (fun p => decide (maxFst l ≤ p.1)) := hlt
  have := List.not_of_lt_findIdx hlt'
  simp only [decide_eq_false_iff_not, not_le] at this
  simp only [List.get_eq_getElem]
  exact this

/-! ### Order structure of the parse_isotherms output -/

theorem argmax_le_length_left (A D : List Pt)
    (hD : D.Pairwise fun x y => y.1 ≤ x.1) (hne : A ++ D ≠ []) :
    argmaxFst (A ++ D) ≤ A.length := by
  by_contra hgt
  push_neg at hgt
  have hm : argmaxFst (A ++ D) < (A ++ D).length := argmaxFst_lt_length hne
  have hmlen : argmaxFst (A ++ D) < A.length + D.length := by simpa using hm
  have hlenD : 0 < D.length := by omega
  have hAlt : A.length < (A ++ D).length := by simp; omega
  have h0 : ((A ++ D).get ⟨A.length, hAlt⟩).1 < maxFst (A ++ D) :=
    lt_maxFst_of_lt_argmax hAlt hgt
  have hM : ((A ++ D).get ⟨argmaxFst (A ++ D), hm⟩).1 = maxFst (A ++ D) :=
    argmaxFst_get hm
  have e0 : (A ++ D).get ⟨A.length, hAlt⟩ = D.get ⟨0, hlenD⟩ := by
    simp only [List.get_eq_getElem]
    rw [List.getElem_append_right (le_refl A.length)]
    simp
  have hsub : argmaxFst (A ++ D) - A.length < D.length := by omega
  have eM : (A ++ D).get ⟨argmaxFst (A ++ D), hm⟩ =
      D.get ⟨argmaxFst (A ++ D) - A.length, hsub⟩ := by
    simp only [List.get_eq_getElem]
    rw [List.getElem_append_right (le_of_lt hgt)]
  have hord : (D.get ⟨argmaxFst (A ++ D) - A.length, hsub⟩).1 ≤ (D.get ⟨0, hlenD⟩).1 := by
    have := List.pairwise_iff_get.mp hD ⟨0, hlenD⟩ ⟨argmaxFst (A ++ D) - A.length, hsub⟩
      (by simp [Fin.lt_def]; omega)
    exact this
  rw [e0] at h0
  rw [eM] at hM
  rw [hM] at hord
  exact absurd (lt_of_le_of_lt hord h0) (lt_irrefl _)

theorem drop_all_max {A : List Pt} {m : ℕ}
    (hA : A.Pairwise fun x y => x.1 ≤ y.1) (hm : m < A.length)
    (hMm : (A.get ⟨m, hm⟩).1 = maxFst A) :
    ∀ x ∈ A.drop m, x.1 = maxFst A := by
  intro x hx
  obtain ⟨⟨j, hj⟩, hget⟩ := List.mem_iff_get.mp hx
  have hmj : m + j < A.length := by
    have := hj
    simp only [List.length_drop] at this
    omega
  have e : (A.drop m).get ⟨j, hj⟩ = A.get ⟨m + j, hmj⟩ := by
    simp only [List.get_eq_getElem]
    exact (List.getElem_drop' A hmj).symm
  have hle : x.1 ≤ maxFst A := le_maxFst (List.mem_of_mem_drop hx)
  rcases Nat.eq_zero_or_pos j with rfl | hjpos
  · rw [← hget, e]
    simpa using hMm
  · have hord : (A.get ⟨m, hm⟩).1 ≤ (A.get ⟨m + j, hmj⟩).1 :=
      List.pairwise_iff_get.mp hA ⟨m, hm⟩ ⟨m + j, hmj⟩ (by simp [Fin.lt_def]; omega)
    rw [hMm] at hord
    have hx2 : x = A.get ⟨m + j, hmj⟩ := by rw [← hget, e]
    rw [hx2]
    exact le_antisymm (hx2 ▸ hle) hord

theorem parse_ads_branch_ascending (ads des : List Pt) :
    (parse_isotherms ads des).1.Pairwise fun x y => x.1 ≤ y.1 := by
  simp only [parse_isotherms]
  set A := sortAsc ads with hA
  set D := sortDesc des with hD
  by_cases hne : A ++ D = []
  · simp [hne]
  have hApw : A.Pairwise fun x y => x.1 ≤ y.1 := sortAsc_pairwise ads
  have hDpw : D.Pairwise fun x y => y.1 ≤ x.1 := sortDesc_pairwise des
  have hm : argmaxFst (A ++ D) < (A ++ D).length := argmaxFst_lt_length hne
  have hle : argmaxFst (A ++ D) ≤ A.length := argmax_le_length_left A D hDpw hne
  rcases lt_or_eq_of_le hle with hlt | heq
  · rw [List.take_append_of_le_length (by omega)]
    exact hApw.sublist (List.take_sublist _ _)
  · have hmlen : argmaxFst (A ++ D) < A.length + D.length := by simpa using hm
    have hlenD : 0 < D.length := by omega
    obtain ⟨d, D2, hDc⟩ := List.exists_cons_of_ne_nil (List.ne_nil_of_length_pos hlenD)
    have hMd : d.1 = maxFst (A ++ D) := by
      have hM : ((A ++ D).get ⟨argmaxFst (A ++ D), hm⟩).1 = maxFst (A ++ D) :=
        argmaxFst_get hm
      have e : (A ++ D).get ⟨argmaxFst (A ++ D), hm⟩ = d := by
        simp only [List.get_eq_getElem]
        have h1 : A.length ≤ argmaxFst (A ++ D) := le_of_eq heq.symm
        rw [List.getElem_append_right h1]
        have h2 : argmaxFst (A ++ D) - A.length = 0 := by omega
        simp only [h2]
        simp [hDc]
      rw [e] at hM
      exact hM
    rw [heq, hDc, List.take_append 1]
    simp only [List.take_succ_cons, List.take_zero]
    rw [List.pairwise_append]
    refine ⟨hApw, by simp, ?_⟩
    intro x hx b hb
    simp only [List.mem_singleton] at hb
    subst hb
    rw [hMd]
    exact le_maxFst (List.mem_append_left D hx)

theorem parse_des_branch_descending (ads des : List Pt) :
    (parse_isotherms ads des).2.Pairwise fun x y => y.1 ≤ x.1 := by
  simp only [parse_isotherms]
  set A := sortAsc ads with hA
  set D := sortDesc des with hD
  by_cases hne : A ++ D = []
  · simp [hne]
  have hApw : A.Pairwise fun x y => x.1 ≤ y.1 := sortAsc_pairwise ads
  have hDpw : D.Pairwise fun x y => y.1 ≤ x.1 := sortDesc_pairwise des
  have hm : argmaxFst (A ++ D) < (A ++ D).length := argmaxFst_lt_length hne
  have hle : argmaxFst (A ++ D) ≤ A.length := argmax_le_length_left A D hDpw hne
  rcases lt_or_eq_of_le hle with hlt | heq
  · rw [List.drop_append_of_le_length (le_of_lt hlt)]
    have hMm : (A.get ⟨argmaxFst (A ++ D), hlt⟩).1 = maxFst (A ++ D) := by
      have hM := argmaxFst_get hm
      have e : (A ++ D).get ⟨argmaxFst (A ++ D), hm⟩ = A.get ⟨argmaxFst (A ++ D), hlt⟩ := by
        simp only [List.get_eq_getElem]
        exact List.getElem_append_left hlt
      rw [e] at hM
      exact hM
    have hdropmax : ∀ x ∈ A.drop (argmaxFst (A ++ D)), x.1 = maxFst (A ++ D) := by
      intro x hx
      have base : ∀ y ∈ A, y.1 ≤ maxFst (A ++ D) := fun y hy =>
        le_maxFst (List.mem_append_left D hy)
      obtain ⟨⟨j, hj⟩, hget⟩ := List.mem_iff_get.mp hx
      have hmj : argmaxFst (A ++ D) + j < A.length := by
        have := hj
        simp only [List.length_drop] at this
        omega
      have e : (A.drop (argmaxFst (A ++ D))).get ⟨j, hj⟩ = A.get ⟨argmaxFst (A ++ D) + j, hmj⟩ := by
        simp only [List.get_eq_getElem]
        exact (List.getElem_drop' A hmj).symm
      rcases Nat.eq_zero_or_pos j with rfl | hjpos
      · rw [← hget, e]
        simpa using hMm
      · have hord : (A.get ⟨argmaxFst (A ++ D), hlt⟩).1 ≤ (A.get ⟨argmaxFst (A ++ D) + j, hmj⟩).1 :=
          List.pairwise_iff_get.mp hApw _ _ (by simp [Fin.lt_def]; omega)
        rw [hMm] at hord
        have hub : x.1 ≤ maxFst (A ++ D) := base x (List.mem_of_mem_drop hx)
        have hx2 : x = A.get ⟨argmaxFst (A ++ D) + j, hmj⟩ := by rw [← hget, e]
        rw [hx2]
        exact le_antisymm (hx2 ▸ hub) hord
    rw [List.pairwise_append]
    refine ⟨?_, hDpw, ?_⟩
    · refine List.pairwise_of_forall_mem_list ?_
      intro a ha b hb
      rw [hdropmax a ha, hdropmax b hb]
    · intro a ha b hb
      rw [hdropmax a ha]
      exact le_maxFst (List.mem_append_right A hb)
  · rw [heq, List.drop_left]
    exact hDpw

/-! ### Claims C2, C3, C4, C9 -/

/-- C2: for a branch whose BET window holds only 2 points, `calc_BET` has no
guard: the window really has 2 points and the denominator `len(ads_bet) - 2`
of the error-propagation formula (lines 182-183) is 0, so the source divides
by zero (NaN in floating point) instead of signalling InsufficientData as
the specification requires. -/
theorem calc_BET_no_insufficient_data_guard :
    (betWindow [(1/10, 50), (1/5, 60)]).length = 2 ∧
    errDenom [(1/10, 50), (1/5, 60)] = 0 := by
  refine ⟨by norm_num [betWindow, List.filter], ?_⟩
  rw [errDenom]
  have h : (betPts [(1/10, 50), (1/5, 60)]).length = 2 := by
    norm_num [betPts, betWindow, List.filter]
  rw [h]
  norm_num

/-- C3: the round-trip claim fails as stated.  The two branches below are
already sorted and meet at the common maximum pressure 3/4, yet re-splitting
the concatenation at the first index of the global maximum returns a
desorption branch with the shared maximum point duplicated (`iso[max_idx:]`
keeps index `max_idx`, which belongs to the adsorption branch). -/
theorem parse_isotherms_roundtrip_fails :
    sortAsc ([(1/2, 10), (3/4, 20)] : List Pt) = [(1/2, 10), (3/4, 20)] ∧
    sortDesc ([(3/4, 20), (1/4, 5)] : List Pt) = [(3/4, 20), (1/4, 5)] ∧
    (parse_isotherms [(1/2, 10), (3/4, 20)] [(3/4, 20), (1/4, 5)]).2 ≠
      [(3/4, 20), (1/4, 5)] := by
  refine ⟨by norm_num [sortAsc, insertAsc], by norm_num [sortDesc, sortAsc, insertAsc], ?_⟩
  norm_num [parse_isotherms, sortAsc, sortDesc, insertAsc, argmaxFst, maxFst,
    List.findIdx_cons]

/-- C3 (amended): when the sorted adsorption branch ends in its unique
pressure maximum `a` and every desorption pressure is at most that maximum
(the branches meet at a common pressure maximum), re-splitting the
concatenation reproduces the adsorption branch exactly, while the
desorption branch is reproduced with the shared maximum point `a`
prepended. -/
theorem parse_isotherms_split_of_meet (ads des : List Pt) (xs : List Pt) (a : Pt)
    (hxs : sortAsc ads = xs ++ [a])
    (hmax : ∀ x ∈ xs, x.1 < a.1)
    (hmeet : ∀ y ∈ sortDesc des, y.1 ≤ a.1) :
    parse_isotherms ads des = (sortAsc ads, a :: sortDesc des) := by
  have hiso : sortAsc ads ++ sortDesc des = xs ++ (a :: sortDesc des) := by
    rw [hxs, List.append_assoc]
    rfl
  have hargmax : argmaxFst (sortAsc ads ++ sortDesc des) = xs.length := by
    rw [hiso]
    exact argmaxFst_append hmax hmeet
  simp only [parse_isotherms]
  rw [hargmax, hiso, List.take_append 1, List.drop_left]
  simp only [List.take_succ_cons, List.take_zero]
  rw [← hxs]

/-- Closed instance of the amended C3 round-trip statement. -/
theorem parse_isotherms_split_of_meet_witness :
    parse_isotherms [(1/2, 10), (3/4, 20)] [(3/4, 20), (1/4, 5)] =
      (sortAsc [(1/2, 10), (3/4, 20)],
        ((3/4 : ℚ), (20 : ℚ)) :: sortDesc [(3/4, 20), (1/4, 5)]) :=
  parse_isotherms_split_of_meet _ _ [(1/2, 10)] (3/4, 20)
    (by norm_num [sortAsc, insertAsc]) (by norm_num)
    (by norm_num [sortDesc, sortAsc, insertAsc])

/-- C4: the claim that both output branches are in descending-pressure order
fails: the adsorption slice `iso[: max_idx + 1]` is ascending, not
descending, as this concrete input shows. -/
theorem parse_isotherms_ads_not_descending :
    ¬ ((parse_isotherms [(1/10, 1), (1/5, 2)] [(1/5, 2), (1/20, 1)]).1.Pairwise
      fun x y : Pt => y.1 ≤ x.1) := by
  norm_num [parse_isotherms, sortAsc, sortDesc, insertAsc, argmaxFst, maxFst,
    List.findIdx_cons, List.pairwise_cons]

/-- C4 (amended): for every pair of input branch lists, the first component
of `parse_isotherms` (the corrected adsorption branch, indices `0..max`
inclusive of the concatenated isotherm) is in ascending-pressure order, and
the second component (the corrected desorption branch, indices `max..end`
inclusive) is in descending-pressure order. -/
theorem parse_isotherms_branch_order (ads des : List Pt) :
    ((parse_isotherms ads des).1.Pairwise fun x y => x.1 ≤ y.1) ∧
    ((parse_isotherms ads des).2.Pairwise fun x y => y.1 ≤ x.1) :=
  ⟨parse_ads_branch_ascending ads des, parse_des_branch_descending ads des⟩

/-- C9: when the table anchor is not found (`re.search` returns `None`) the
branch extractors print a diagnostic and return the zero placeholder instead
of raising: `parse_isoterm_branch` returns the `np.zeros([1, 2])` single row
`(0, 0)` (line 132), `get_custom_table` returns `[[0.], [0.]]` (line 33),
and when the anchor matches but no numeric rows follow the row iteration
yields the empty list.  Both functions are total in the embedding because
the source returns on every path. -/
theorem parse_not_found_returns_placeholder :
    parse_isoterm_branch none = [(0, 0)] ∧ parse_isoterm_branch (some []) = [] ∧
    get_custom_table none = ([0], [0]) ∧ get_custom_table (some ([], [])) = ([], []) :=
  ⟨rfl, rfl, rfl, rfl⟩

/-! ### Recurrence structure of the BJH arrays -/

theorem helperArr_zero (l : List Pt) : helperArr l 0 = 0 := rfl

theorem diff_V_zero (l : List Pt) : diff_V l 0 = 0 := rfl

theorem diff_A_zero (l : List Pt) : diff_A l 0 = 0 := rfl

theorem cum_V_zero (l : List Pt) : cum_V l 0 = 0 := rfl

theorem cum_A_zero (l : List Pt) : cum_A l 0 = 0 := rfl

theorem helperArr_succ (l : List Pt) (i : ℕ) :
    helperArr l (i + 1) =
      diff_A l i / 1000 * (1 - wall l (i + 1) / (diam l (i + 1) / 2)) + helperArr l i := rfl

theorem diff_V_succ (l : List Pt) (i : ℕ) :
    diff_V l (i + 1) =
      (diam l (i + 1) / (diam l (i + 1) / 2 - wall l (i + 1))) ^ 2 *
        (0.0015468 * (quant l i - quant l (i + 1)) -
          (wall l i - wall l (i + 1)) * helperArr l (i + 1)) / 4 := rfl

theorem diff_A_succ (l : List Pt) (i : ℕ) :
    diff_A l (i + 1) = 4000 * diff_V l (i + 1) / diam l (i + 1) := rfl

theorem cum_V_succ (l : List Pt) (i : ℕ) :
    cum_V l (i + 1) = cum_V l i + diff_V l (i + 1) := rfl

theorem cum_A_succ (l : List Pt) (i : ℕ) :
    cum_A l (i + 1) = cum_A l i + diff_A l (i + 1) := rfl

theorem cum_V_eq_sum (l : List Pt) (i : ℕ) :
    cum_V l (i + 1) = ∑ j in Finset.range (i + 1), diff_V l (j + 1) := by
  induction i with
  | zero => simp [cum_V_succ, cum_V_zero]
  | succ k ih =>
    rw [cum_V_succ, ih]
    exact (Finset.sum_range_succ _ _).symm

theorem cum_A_eq_sum (l : List Pt) (i : ℕ) :
    cum_A l (i + 1) = ∑ j in Finset.range (i + 1), diff_A l (j + 1) := by
  induction i with
  | zero => simp [cum_A_succ, cum_A_zero]
  | succ k ih =>
    rw [cum_A_succ, ih]
    exact (Finset.sum_range_succ _ _).symm

theorem diam_zero (l : List Pt) : diam l 0 = 0 := rfl

theorem diam_succ (l : List Pt) (i : ℕ) :
    diam l (i + 1) = radius l (i + 1) + radius l i + wall l (i + 1) + wall l i := by
  simp [diam]

/-! ### Sign facts for the Kelvin radius and the adsorbed-layer thickness -/

theorem logb_ten_neg {p : ℝ} (h0 : 0 < p) (h1 : p < 1) : Real.logb 10 p < 0 :=
  Real.logb_neg (by norm_num) h0 h1

theorem radius_pos {l : List Pt} {i : ℕ} (h0 : 0 < press l i) (h1 : press l i < 1) :
    0 < radius l i := by
  rw [radius]
  have hL := logb_ten_neg h0 h1
  have heq : (-0.415 : ℝ) / Real.logb 10 (press l i) =
      0.415 / (-(Real.logb 10 (press l i))) := by
    rw [div_neg, neg_div]
  rw [heq]
  exact div_pos (by norm_num) (neg_pos.mpr hL)

theorem wall_pos {l : List Pt} {i : ℕ} (h0 : 0 < press l i) (h1 : press l i < 1) :
    0 < wall l i := by
  rw [wall]
  have hL := logb_ten_neg h0 h1
  exact Real.sqrt_pos.mpr (div_pos (by norm_num) (by linarith))

theorem wall_lt_wall {l : List Pt} {i j : ℕ} (h0 : 0 < press l i)
    (hij : press l i < press l j) (h1 : press l j < 1) :
    wall l i < wall l j := by
  rw [wall, wall]
  have hLj := logb_ten_neg (lt_trans h0 hij) h1
  have hLij : Real.logb 10 (press l i) < Real.logb 10 (press l j) :=
    Real.logb_lt_logb (by norm_num) h0 hij
  have hdenj : (0 : ℝ) < 0.034 - Real.logb 10 (press l j) := by linarith
  have hdeni : (0 : ℝ) < 0.034 - Real.logb 10 (press l i) := by linarith
  refine Real.sqrt_lt_sqrt (le_of_lt (div_pos (by norm_num) hdeni)) ?_
  exact div_lt_div_of_pos_left (by norm_num) hdenj (by linarith)

theorem getD_mem {l : List Pt} {k : ℕ} (hk : k < l.length) : l.getD k (0, 0) ∈ l := by
  rw [List.getD_eq_get? , List.get?_eq_get hk]
  exact List.get_mem l k hk

theorem press_bounds {b : List Pt} (hb : ∀ x ∈ b, 0 < x.1 ∧ x.1 < 1) {k : ℕ}
    (hk : k < (sortDesc b).length) :
    0 < press (sortDesc b) k ∧ press (sortDesc b) k < 1 := by
  have hmem : (sortDesc b).getD k (0, 0) ∈ b := (sortDesc_perm b).subset (getD_mem hk)
  obtain ⟨h0, h1⟩ := hb _ hmem
  exact ⟨by rw [press]; exact_mod_cast h0, by rw [press]; exact_mod_cast h1⟩

/-! ### Claims C5, C7, C8, C10 -/

/-- C5: the clamp `arr[arr < 0.] = 0.` is applied only to the four
derivative series (as `max · 0`), after the cumulative series have been
accumulated: each returned cumulative entry is the running sum of the
returned (un-clamped, possibly negative) differential entries, and the
returned differential and cumulative series are exactly the raw recurrence
values, never clamped. -/
theorem calc_BJH_clamp_policy (b : List Pt) (s e : ℝ) (i : ℕ) :
    (calc_BJH b s e).V i = ∑ j in Finset.range (i + 1), (calc_BJH b s e).dV j ∧
    (calc_BJH b s e).A i = ∑ j in Finset.range (i + 1), (calc_BJH b s e).dA j ∧
    (calc_BJH b s e).dV i = diff_V (sortDesc b) (i + 1) ∧
    (calc_BJH b s e).dA i = diff_A (sortDesc b) (i + 1) ∧
    (calc_BJH b s e).dV_dD i = max (dV_dD (sortDesc b) (i + 1)) 0 ∧
    (calc_BJH b s e).dA_dD i = max (dA_dD (sortDesc b) (i + 1)) 0 ∧
    (calc_BJH b s e).dV_dlogD i = max (dV_dlogD (sortDesc b) (i + 1)) 0 ∧
    (calc_BJH b s e).dA_dlogD i = max (dA_dlogD (sortDesc b) (i + 1)) 0 := by
  refine ⟨?_, ?_, rfl, rfl, rfl, rfl, rfl, rfl⟩
  · exact cum_V_eq_sum (sortDesc b) i
  · exact cum_A_eq_sum (sortDesc b) i

/-- C7: with every relative pressure strictly inside (0, 1), the sentinel
diameter at index 0 is 0 and every returned pore diameter is non-negative,
because both the Kelvin radius and the adsorbed-layer thickness are
positive when `log10` of the pressure is negative. -/
theorem calc_BJH_diameters_nonneg (b : List Pt) (s e : ℝ)
    (hb : ∀ x ∈ b, 0 < x.1 ∧ x.1 < 1) :
    diam (sortDesc b) 0 = 0 ∧
    ∀ i, i + 1 < (sortDesc b).length → 0 ≤ (calc_BJH b s e).D i := by
  refine ⟨rfl, ?_⟩
  intro i hi
  have hii : i < (sortDesc b).length := by omega
  obtain ⟨h0, h1⟩ := press_bounds hb hii
  obtain ⟨h0s, h1s⟩ := press_bounds hb hi
  have hD : (calc_BJH b s e).D i = diam (sortDesc b) (i + 1) := rfl
  rw [hD, diam_succ]
  have := radius_pos h0 h1
  have := radius_pos h0s h1s
  have := wall_pos h0 h1
  have := wall_pos h0s h1s
  linarith

/-- Closed instance of C7 on a two-point branch. -/
theorem calc_BJH_diameters_nonneg_witness :
    diam (sortDesc [((1 : ℚ)/2, 1), ((1 : ℚ)/4, 2)]) 0 = 0 ∧
    ∀ i, i + 1 < (sortDesc [((1 : ℚ)/2, 1), ((1 : ℚ)/4, 2)]).length →
      0 ≤ (calc_BJH [((1 : ℚ)/2, 1), ((1 : ℚ)/4, 2)] 2.5 90).D i :=
  calc_BJH_diameters_nonneg _ 2.5 90 (by norm_num)

/-- C8: for the single-point branch `[(1/2, 1)]` (shorter than 2 points)
`calc_BJH` does not signal InsufficientData: the user-window diameter mask
selects no index (the sentinel diameter 0 lies outside [2.5, 90]), so the
`np.max` reductions of lines 260-261 operate on an empty array — a
`ValueError` crash in `numpy`, embedded here as the `⊥` maximum of an empty
list. -/
theorem calc_BJH_single_point_no_signal :
    ([((1 : ℚ)/2, 1)] : List Pt).length < 2 ∧
    (calc_BJH [((1 : ℚ)/2, 1)] 2.5 90).total_V_user = ⊥ ∧
    (calc_BJH [((1 : ℚ)/2, 1)] 2.5 90).total_A_user = ⊥ := by
  have hsort : sortDesc [((1 : ℚ)/2, 1)] = [((1 : ℚ)/2, 1)] := rfl
  have huser : userIdx (sortDesc [((1 : ℚ)/2, 1)]) 2.5 90 = [] := by
    rw [hsort]
    norm_num [userIdx, List.filter, diam]
  refine ⟨by norm_num, ?_, ?_⟩
  · show ((userIdx (sortDesc [((1 : ℚ)/2, 1)]) 2.5 90).map
      (cum_V (sortDesc [((1 : ℚ)/2, 1)]))).maximum = ⊥
    rw [huser]
    rfl
  · show ((userIdx (sortDesc [((1 : ℚ)/2, 1)]) 2.5 90).map
      (cum_A (sortDesc [((1 : ℚ)/2, 1)]))).maximum = ⊥
    rw [huser]
    rfl

/-- C10: `calc_BJH` re-sorts its input into descending-pressure order
itself (line 218), so for branches with pairwise-distinct pressures every
row permutation of the input produces the identical result. -/
theorem calc_BJH_permutation_invariant (b b' : List Pt) (s e : ℝ)
    (hperm : b.Perm b') (hnd : (b.map Prod.fst).Nodup) :
    calc_BJH b s e = calc_BJH b' s e := by
  rw [calc_BJH, calc_BJH, sortDesc_eq_of_perm hperm hnd]

/-- Closed instance of C10 on a two-point branch and its swap. -/
theorem calc_BJH_permutation_invariant_witness :
    calc_BJH [((1 : ℚ)/2, 1), ((1 : ℚ)/4, 2)] 2.5 90 =
      calc_BJH [((1 : ℚ)/4, 2), ((1 : ℚ)/2, 1)] 2.5 90 :=
  calc_BJH_permutation_invariant _ _ 2.5 90
    (List.Perm.swap _ _ _) (by norm_num)

/-! ### Claim C1 -/

/-- Descending-pressure branch on which the quantity adsorbed increases,
making the BJH differential volume negative. -/
def C1branch : List Pt := [(9/10, 1), (4/5, 1), (7/10, 2)]

/-- C1: the cumulative series of `calc_BJH` are not monotonically
non-decreasing.  On the branch `[(0.9, 1), (0.8, 1), (0.7, 2)]` (descending
pressure, so `calc_BJH` accepts it unchanged) the step from index 1 to
index 2 has `q[i-1] - q[i] = -1`, the helper accumulator is still 0, and
the squared prefactor is strictly positive, so `diff_V[2] < 0` and the
cumulative volume and area strictly decrease.  The clamp of lines 274-277
only touches the four derivative series, not the cumulative ones. -/
theorem calc_BJH_cumulative_not_monotone :
    (calc_BJH C1branch 2.5 90).V 1 < (calc_BJH C1branch 2.5 90).V 0 ∧
    (calc_BJH C1branch 2.5 90).A 1 < (calc_BJH C1branch 2.5 90).A 0 := by
  have hsort : sortDesc C1branch = C1branch := by
    norm_num [C1branch, sortDesc, sortAsc, insertAsc]
  have hp1 : press C1branch 1 = ((4/5 : ℚ) : ℝ) := rfl
  have hp2 : press C1branch 2 = ((7/10 : ℚ) : ℝ) := rfl
  have hb1 : 0 < press C1branch 1 ∧ press C1branch 1 < 1 := by
    rw [hp1]; constructor <;> norm_num
  have hb2 : 0 < press C1branch 2 ∧ press C1branch 2 < 1 := by
    rw [hp2]; constructor <;> norm_num
  have h21 : press C1branch 2 < press C1branch 1 := by
    rw [hp1, hp2]; norm_num
  have hq1 : quant C1branch 1 = ((1 : ℚ) : ℝ) := rfl
  have hq2 : quant C1branch 2 = ((2 : ℚ) : ℝ) := rfl
  have hq0 : quant C1branch 0 = ((1 : ℚ) : ℝ) := rfl
  have hh1 : helperArr C1branch 1 = 0 := by
    rw [helperArr_succ, diff_A_zero, helperArr_zero]
    ring
  have hdV1 : diff_V C1branch 1 = 0 := by
    rw [diff_V_succ, hh1, hq0, hq1]
    ring
  have hdA1 : diff_A C1branch 1 = 0 := by
    rw [diff_A_succ, hdV1]
    ring
  have hh2 : helperArr C1branch 2 = 0 := by
    rw [helperArr_succ, hdA1, hh1]
    ring
  have hr1 : 0 < radius C1branch 1 := radius_pos hb1.1 hb1.2
  have hr2 : 0 < radius C1branch 2 := radius_pos hb2.1 hb2.2
  have hw1 : 0 < wall C1branch 1 := wall_pos hb1.1 hb1.2
  have hw2 : 0 < wall C1branch 2 := wall_pos hb2.1 hb2.2
  have hw21 : wall C1branch 2 < wall C1branch 1 := wall_lt_wall hb2.1 h21 hb1.2
  have hdiam2 : diam C1branch 2 =
      radius C1branch 2 + radius C1branch 1 + wall C1branch 2 + wall C1branch 1 :=
    diam_succ C1branch 1
  have hd2pos : 0 < diam C1branch 2 := by rw [hdiam2]; linarith
  have hsub : 0 < diam C1branch 2 / 2 - wall C1branch 2 := by rw [hdiam2]; linarith
  have hS : 0 < (diam C1branch 2 / (diam C1branch 2 / 2 - wall C1branch 2)) ^ 2 :=
    pow_pos (div_pos hd2pos hsub) 2
  have hdV2 : diff_V C1branch 2 < 0 := by
    rw [diff_V_succ, hh2, hq1, hq2]
    have hinner : (0.0015468 * (((1 : ℚ) : ℝ) - ((2 : ℚ) : ℝ)) -
        (wall C1branch 1 - wall C1branch 2) * 0) = -0.0015468 := by
      push_cast
      ring
    rw [hinner]
    exact div_neg_of_neg_of_pos (mul_neg_of_pos_of_neg hS (by norm_num)) (by norm_num)
  have hdA2 : diff_A C1branch 2 < 0 := by
    rw [diff_A_succ]
    exact div_neg_of_neg_of_pos (by nlinarith) hd2pos
  have hV0 : (calc_BJH C1branch 2.5 90).V 0 = cum_V C1branch 1 := by
    show cum_V (sortDesc C1branch) 1 = cum_V C1branch 1
    rw [hsort]
  have hV1 : (calc_BJH C1branch 2.5 90).V 1 = cum_V C1branch 2 := by
    show cum_V (sortDesc C1branch) 2 = cum_V C1branch 2
    rw [hsort]
  have hA0 : (calc_BJH C1branch 2.5 90).A 0 = cum_A C1branch 1 := by
    show cum_A (sortDesc C1branch) 1 = cum_A C1branch 1
    rw [hsort]
  have hA1 : (calc_BJH C1branch 2.5 90).A 1 = cum_A C1branch 2 := by
    show cum_A (sortDesc C1branch) 2 = cum_A C1branch 2
    rw [hsort]
  constructor
  · rw [hV0, hV1, cum_V_succ]
    linarith
  · rw [hA0, hA1, cum_A_succ]
    linarith

/-- C1 (amended): each cumulative entry exceeds its predecessor by exactly
the corresponding un-clamped differential entry, so the cumulative volume
and area series are non-decreasing whenever the differential volume and
area series are non-negative over the branch; the code does not enforce
that non-negativity (see the counterexample). -/
theorem calc_BJH_cumulative_monotone_of_nonneg (b : List Pt) (s e : ℝ)
    (hdV : ∀ i, i + 1 < (sortDesc b).length → 0 ≤ (calc_BJH b s e).dV i)
    (hdA : ∀ i, i + 1 < (sortDesc b).length → 0 ≤ (calc_BJH b s e).dA i) :
    ∀ i, i + 2 < (sortDesc b).length →
      (calc_BJH b s e).V i ≤ (calc_BJH b s e).V (i + 1) ∧
      (calc_BJH b s e).A i ≤ (calc_BJH b s e).A (i + 1) := by
  intro i hi
  have hV : (calc_BJH b s e).V (i + 1) =
      (calc_BJH b s e).V i + diff_V (sortDesc b) (i + 2) := by
    show cum_V (sortDesc b) (i + 2) = cum_V (sortDesc b) (i + 1) + diff_V (sortDesc b) (i + 2)
    exact cum_V_succ (sortDesc b) (i + 1)
  have hA : (calc_BJH b s e).A (i + 1) =
      (calc_BJH b s e).A i + diff_A (sortDesc b) (i + 2) := by
    show cum_A (sortDesc b) (i + 2) = cum_A (sortDesc b) (i + 1) + diff_A (sortDesc b) (i + 2)
    exact cum_A_succ (sortDesc b) (i + 1)
  have h1 : 0 ≤ diff_V (sortDesc b) (i + 2) := hdV (i + 1) (by omega)
  have h2 : 0 ≤ diff_A (sortDesc b) (i + 2) := hdA (i + 1) (by omega)
  constructor
  · rw [hV]; linarith
  · rw [hA]; linarith

/-- Branch with constant quantity adsorbed: every BJH differential entry
is zero, so the non-negativity hypotheses of the amended C1 statement hold. -/
def W1branch : List Pt := [(9/10, 1), (4/5, 1), (7/10, 1)]

/-- Closed instance of the amended C1 statement. -/
theorem calc_BJH_cumulative_monotone_of_nonneg_witness :
    (calc_BJH W1branch 2.5 90).V 0 ≤ (calc_BJH W1branch 2.5 90).V 1 ∧
    (calc_BJH W1branch 2.5 90).A 0 ≤ (calc_BJH W1branch 2.5 90).A 1 := by
  have hsort : sortDesc W1branch = W1branch := by
    norm_num [W1branch, sortDesc, sortAsc, insertAsc]
  have hq0 : quant W1branch 0 = ((1 : ℚ) : ℝ) := rfl
  have hq1 : quant W1branch 1 = ((1 : ℚ) : ℝ) := rfl
  have hq2 : quant W1branch 2 = ((1 : ℚ) : ℝ) := rfl
  have hh1 : helperArr W1branch 1 = 0 := by
    rw [helperArr_succ, diff_A_zero, helperArr_zero]
    ring
  have hdV1 : diff_V W1branch 1 = 0 := by
    rw [diff_V_succ, hh1, hq0, hq1]
    ring
  have hdA1 : diff_A W1branch 1 = 0 := by
    rw [diff_A_succ, hdV1]
    ring
  have hh2 : helperArr W1branch 2 = 0 := by
    rw [helperArr_succ, hdA1, hh1]
    ring
  have hdV2 : diff_V W1branch 2 = 0 := by
    rw [diff_V_succ, hh2, hq1, hq2]
    ring
  have hdA2 : diff_A W1branch 2 = 0 := by
    rw [diff_A_succ, hdV2]
    ring
  have hlen : (sortDesc W1branch).length = 3 := by rw [hsort]; rfl
  have hdV : ∀ i, i + 1 < (sortDesc W1branch).length →
      0 ≤ (calc_BJH W1branch 2.5 90).dV i := by
    intro i hi
    rw [hlen] at hi
    have hdv : (calc_BJH W1branch 2.5 90).dV i = diff_V W1branch (i + 1) := by
      show diff_V (sortDesc W1branch) (i + 1) = diff_V W1branch (i + 1)
      rw [hsort]
    have hi2 : i ≤ 1 := by omega
    interval_cases i
    · rw [hdv, hdV1]
    · rw [hdv, hdV2]
  have hdA : ∀ i, i + 1 < (sortDesc W1branch).length →
      0 ≤ (calc_BJH W1branch 2.5 90).dA i := by
    intro i hi
    rw [hlen] at hi
    have hda : (calc_BJH W1branch 2.5 90).dA i = diff_A W1branch (i + 1) := by
      show diff_A (sortDesc W1branch) (i + 1) = diff_A W1branch (i + 1)
      rw [hsort]
    have hi2 : i ≤ 1 := by omega
    interval_cases i
    · rw [hda, hdA1]
    · rw [hda, hdA2]
  exact calc_BJH_cumulative_monotone_of_nonneg W1branch 2.5 90 hdV hdA 0
    (by rw [hlen]; norm_num)

/-! ### Ordinary least squares: the linregress closed form minimises the
residual sum of squares -/

theorem sum_map_add (l : List (ℝ × ℝ)) (f g : ℝ × ℝ → ℝ) :
    (l.map fun x => f x + g x).sum = (l.map f).sum + (l.map g).sum := by
  induction l with
  | nil => simp
  | cons a t ih =>
    simp only [List.map_cons, List.sum_cons, ih]
    ring

theorem sum_map_mul_left (l : List (ℝ × ℝ)) (c : ℝ) (f : ℝ × ℝ → ℝ) :
    (l.map fun x => c * f x).sum = c * (l.map f).sum := by
  induction l with
  | nil => simp
  | cons a t ih =>
    simp only [List.map_cons, List.sum_cons, ih]
    ring

theorem sum_map_const (l : List (ℝ × ℝ)) (c : ℝ) :
    (l.map fun _ => c).sum = l.length * c := by
  induction l with
  | nil => simp
  | cons a t ih =>
    simp only [List.map_cons, List.sum_cons, ih, List.length_cons]
    push_cast
    ring

theorem length_ne_zero_real {l : List (ℝ × ℝ)} (hl : l ≠ []) : (l.length : ℝ) ≠ 0 := by
  have := List.length_pos.mpr hl
  positivity

theorem sum_sub_xbar (l : List (ℝ × ℝ)) (hl : l ≠ []) :
    (l.map fun p => p.1 - xbar l).sum = 0 := by
  have hfun : (fun p : ℝ × ℝ => p.1 - xbar l) =
      fun p : ℝ × ℝ => Prod.fst p + (-1) * xbar l := by
    funext p
    ring
  rw [hfun, sum_map_add, sum_map_const, xbar]
  have hn := length_ne_zero_real hl
  field_simp
  ring

theorem sum_sub_ybar (l : List (ℝ × ℝ)) (hl : l ≠ []) :
    (l.map fun p => p.2 - ybar l).sum = 0 := by
  have hfun : (fun p : ℝ × ℝ => p.2 - ybar l) =
      fun p : ℝ × ℝ => Prod.snd p + (-1) * ybar l := by
    funext p
    ring
  rw [hfun, sum_map_add, sum_map_const, ybar]
  have hn := length_ne_zero_real hl
  field_simp
  ring

theorem rss_decomp (l : List (ℝ × ℝ)) (hl : l ≠ []) (a b : ℝ) :
    rss l a b = syy l - 2 * a * sxy l + a ^ 2 * sxx l +
      l.length * (ybar l - a * xbar l - b) ^ 2 := by
  set c := ybar l - a * xbar l - b with hc
  have hfun : (fun p : ℝ × ℝ => (p.2 - (a * p.1 + b)) ^ 2) =
      fun p : ℝ × ℝ =>
        (p.2 - ybar l) ^ 2 +
          (a ^ 2 * (p.1 - xbar l) ^ 2 +
            (c ^ 2 +
              ((-2 * a) * ((p.1 - xbar l) * (p.2 - ybar l)) +
                ((2 * c) * (p.2 - ybar l) + ((-2 * a * c) * (p.1 - xbar l)))))) := by
    funext p
    rw [hc]
    ring
  rw [rss, hfun, sum_map_add, sum_map_add, sum_map_add, sum_map_add, sum_map_add,
    sum_map_mul_left, sum_map_mul_left, sum_map_mul_left, sum_map_mul_left,
    sum_map_const, sum_sub_xbar l hl, sum_sub_ybar l hl, syy, sxx, sxy]
  ring

theorem sxx_nonneg (l : List (ℝ × ℝ)) : 0 ≤ sxx l := by
  refine List.sum_nonneg ?_
  intro x hx
  obtain ⟨p, _, rfl⟩ := List.mem_map.mp hx
  positivity

theorem rss_le_rss (l : List (ℝ × ℝ)) (hsxx : sxx l ≠ 0) (a b : ℝ) :
    rss l (slope l) (intercept l) ≤ rss l a b := by
  have hl : l ≠ [] := by
    intro h
    rw [h] at hsxx
    simp [sxx] at hsxx
  have hpos : 0 < sxx l := lt_of_le_of_ne (sxx_nonneg l) (Ne.symm hsxx)
  have h1 := rss_decomp l hl a b
  have h2 := rss_decomp l hl (slope l) (intercept l)
  have hc2 : ybar l - slope l * xbar l - intercept l = 0 := by
    rw [intercept]
    ring
  rw [h1, h2, hc2]
  have key : sxy l = slope l * sxx l := by
    rw [slope]
    field_simp
  rw [key]
  have hn : 0 ≤ (l.length : ℝ) * (ybar l - a * xbar l - b) ^ 2 := by positivity
  nlinarith [mul_nonneg (le_of_lt hpos) (sq_nonneg (a - slope l)), hn]

/-! ### Claim C6 -/

/-- C6: for a branch with at least 3 points in the BET window, `calc_BET`
filters to exactly the points with relative pressure strictly between 0.05
and 0.3, applies the BET transform `1 / (y * (1/x - 1))`, fits the
transformed data by ordinary least squares (the returned slope/intercept
minimise the residual sum of squares whenever the window pressures are not
all equal, i.e. `sxx ≠ 0`), and returns surface area
`4.35255551372 / (slope + intercept)` with absolute error equal to the
surface area times `3 * sqrt(slope_err² + intercept_err²) / (slope +
intercept)`, where each coefficient error is the coefficient times
`sqrt((r⁻² - 1) / (n - 2))`. -/
theorem calc_BET_formula (ads : List Pt) (h : 3 ≤ (betWindow ads).length) :
    betWindow ads = ads.filter (fun p => decide (0.05 < p.1 ∧ p.1 < 0.3)) ∧
    betPts ads = (betWindow ads).map (fun p => (p.1, 1 / (p.2 * (p.1⁻¹ - 1)))) ∧
    (calc_BET ads).bet_A =
      4.35255551372 / (slope (toR (betPts ads)) + intercept (toR (betPts ads))) ∧
    (calc_BET ads).bet_A_err = (calc_BET ads).bet_A *
      (3 * Real.sqrt
        ((slope (toR (betPts ads)) *
            Real.sqrt (((rvalue (toR (betPts ads)) ^ 2)⁻¹ - 1) /
              (((betWindow ads).length : ℝ) - 2))) ^ 2 +
          (intercept (toR (betPts ads)) *
            Real.sqrt (((rvalue (toR (betPts ads)) ^ 2)⁻¹ - 1) /
              (((betWindow ads).length : ℝ) - 2))) ^ 2) /
        (slope (toR (betPts ads)) + intercept (toR (betPts ads)))) ∧
    (sxx (toR (betPts ads)) ≠ 0 → ∀ a b : ℝ,
      rss (toR (betPts ads)) (slope (toR (betPts ads))) (intercept (toR (betPts ads))) ≤
        rss (toR (betPts ads)) a b) := by
  refine ⟨rfl, rfl, rfl, ?_, fun hsxx a b => rss_le_rss _ hsxx a b⟩
  have hlen : errDenom ads = ((betWindow ads).length : ℝ) - 2 := by
    rw [errDenom, betPts, List.length_map]
  have hA : (calc_BET ads).bet_A =
      4.35255551372 / (slope (toR (betPts ads)) + intercept (toR (betPts ads))) := rfl
  have hE : (calc_BET ads).bet_A_err =
      3 * (4.35255551372 / (slope (toR (betPts ads)) + intercept (toR (betPts ads)))) *
        Real.sqrt
          ((slope (toR (betPts ads)) *
              Real.sqrt (((rvalue (toR (betPts ads)) ^ 2)⁻¹ - 1) / errDenom ads)) ^ 2 +
            (intercept (toR (betPts ads)) *
              Real.sqrt (((rvalue (toR (betPts ads)) ^ 2)⁻¹ - 1) / errDenom ads)) ^ 2) /
        (slope (toR (betPts ads)) + intercept (toR (betPts ads))) := rfl
  rw [hE, hA, hlen]
  ring

/-- Adsorption branch with exactly three points inside the BET window. -/
def C6branch : List Pt := [(1/10, 50), (3/20, 55), (1/5, 60)]

/-- Closed instance of the C6 statement. -/
theorem calc_BET_formula_witness :
    3 ≤ (betWindow C6branch).length ∧
    (calc_BET C6branch).bet_A =
      4.35255551372 / (slope (toR (betPts C6branch)) + intercept (toR (betPts C6branch))) := by
  have h : 3 ≤ (betWindow C6branch).length := by
    norm_num [C6branch, betWindow, List.filter]
  exact ⟨h, (calc_BET_formula C6branch h).2.2.1⟩

end Tristar
